import Mathlib

/-!
Verification of the data-loading/labeling pipeline and the train/evaluate/report
cycle of the training script (src/train.py).

The script's own logic that the claims concern is:
  - label extraction from file paths (train.py lines 75-83),
  - the train/test split call (line 93-95, delegated to sklearn),
  - steps per epoch (line 116),
  - the confusion matrix (lines 124-127, delegated to sklearn),
  - the misclassified-image report (lines 133-147).

Paths are modelled as strings; path components are obtained by splitting on the
slash character, matching pathlib's name/parent.name on ordinary file paths.
Python's str.split with a one-character separator is modelled by splitOnC.
-/

namespace AquariumTrain

/-- Python str.split(sep) for a one-character separator sep, over the character
list of the string.  Like Python, the result is never empty and empty pieces
are kept (e.g. splitting the characters of a trailing-separator string yields a
final empty piece). -/
def splitOnC (c : Char) : List Char → List (List Char)
  | [] => [[]]
  | x :: xs =>
    let r := splitOnC c xs
    if x = c then [] :: r
    else (x :: r.headD []) :: r.tail

/-- pathlib .parent.name: the next-to-last slash-separated component of the
path (empty when the path has fewer than two components, as for Path with a
root or single-component parent). Used by train.py line 76. -/
def parentNameOf (path : String) : List Char :=
  ((splitOnC '/' path.data).dropLast).getLastD []

/-- pathlib .name: the last slash-separated component of the path. -/
def fileNameOf (path : String) : List Char :=
  (splitOnC '/' path.data).getLastD []

/-- train.py line 76: label for input_type "mnist" is the parent directory
name of the file. -/
def mnistLabel (path : String) : String :=
  String.mk (parentNameOf path)

/-- train.py lines 78-80: label for input_type "chinese" is
name.split(".")[0].split("_")[-1]: the part of the filename before the first
dot, then the part of that after the last underscore. -/
def chineseLabel (path : String) : String :=
  String.mk ((splitOnC '_' ((splitOnC '.' (fileNameOf path)).headD [])).getLastD [])

/-- train.py lines 75-80: the if/elif on args.input_type.  No else branch
exists, so for any other input_type the name all_labels is never bound and the
run fails at line 81 with an uncaught NameError; this is modelled by none. -/
def allLabelsOf (inputType : String) (paths : List String) : Option (List String) :=
  if inputType = "mnist" then some (paths.map mnistLabel)
  else if inputType = "chinese" then some (paths.map chineseLabel)
  else none

/-- Python enumerate starting at i, with the (label, index) pairs swapped the
way the dict comprehension at train.py line 82 swaps them. -/
def enumFrom (i : Nat) : List String → List (String × Nat)
  | [] => []
  | x :: t => (x, i) :: enumFrom (i + 1) t

/-- train.py line 82: label_index = (dict mapping label to its position in the
labels list), as an association list in insertion order.  The labels list is
duplicate-free, so association-list lookup agrees with the Python dict. -/
def labelIndex (labels : List String) : List (String × Nat) :=
  enumFrom 0 labels

/-- Dict lookup label_index[l].  For the labels actually occurring this never
falls back to the default. -/
def lookupLabel (li : List (String × Nat)) (l : String) : Nat :=
  (List.lookup l li).getD 0

/-- train.py lines 81-83: labels = list(set(all_labels)) (the duplicate-free
label list; Python set iteration order is arbitrary and is modelled by
List.dedup), then each label string is replaced by its integer index. -/
def intLabelsFrom (als : List String) : List Nat :=
  als.map (lookupLabel (labelIndex als.dedup))

/-- Number of distinct labels, len(label_index): the model is built with this
many output classes (train.py line 111). -/
def numClasses (als : List String) : Nat :=
  als.dedup.length

/-- The whole label-extraction step: string labels, then integer labels. -/
def intLabelsOf (inputType : String) (paths : List String) : Option (List Nat) :=
  (allLabelsOf inputType paths).map intLabelsFrom

/-! ### Basic facts about splitOnC -/

theorem splitOnC_cons_self (c : Char) (l : List Char) :
    splitOnC c (c :: l) = [] :: splitOnC c l := by
  simp [splitOnC]

theorem splitOnC_cons_ne (c x : Char) (l : List Char) (hx : x ≠ c) :
    splitOnC c (x :: l) = (x :: (splitOnC c l).headD []) :: (splitOnC c l).tail := by
  simp [splitOnC, hx]

theorem splitOnC_ne_nil (c : Char) (s : List Char) : splitOnC c s ≠ [] := by
  cases s with
  | nil => simp [splitOnC]
  | cons x xs =>
    by_cases hx : x = c
    · subst hx; rw [splitOnC_cons_self]; simp
    · rw [splitOnC_cons_ne c x xs hx]; simp

theorem splitOnC_not_mem (c : Char) (s : List Char) (h : c ∉ s) : splitOnC c s = [s] := by
  induction s with
  | nil => rfl
  | cons x xs ih =>
    simp only [List.mem_cons, not_or] at h
    have hx : x ≠ c := fun hxc => h.1 hxc.symm
    rw [splitOnC_cons_ne c x xs hx, ih h.2]
    rfl

theorem splitOnC_append (c : Char) (a b : List Char) (h : c ∉ a) :
    splitOnC c (a ++ c :: b) = a :: splitOnC c b := by
  induction a with
  | nil => simpa using splitOnC_cons_self c b
  | cons x xs ih =>
    simp only [List.mem_cons, not_or] at h
    have hx : x ≠ c := fun hxc => h.1 hxc.symm
    rw [List.cons_append, splitOnC_cons_ne c x _ hx, ih h.2]
    rfl

theorem two_le_length_splitOnC (c : Char) (a b : List Char) :
    2 ≤ (splitOnC c (a ++ c :: b)).length := by
  induction a with
  | nil =>
    have h := splitOnC_ne_nil c b
    rw [List.nil_append, splitOnC_cons_self]
    cases hb : splitOnC c b with
    | nil => exact absurd hb h
    | cons y ys => simp
  | cons x xs ih =>
    by_cases hx : x = c
    · subst hx
      rw [List.cons_append, splitOnC_cons_self, List.length_cons]
      omega
    · rw [List.cons_append, splitOnC_cons_ne c x _ hx]
      cases hr : splitOnC c (xs ++ c :: b) with
      | nil => simp [hr] at ih
      | cons y ys =>
        rw [hr] at ih
        cases ys with
        | nil => simp at ih
        | cons z zs => simp

theorem getLast?_splitOnC_append (c : Char) (a b : List Char) :
    (splitOnC c (a ++ c :: b)).getLast? = (splitOnC c b).getLast? := by
  induction a with
  | nil =>
    have h := splitOnC_ne_nil c b
    rw [List.nil_append, splitOnC_cons_self]
    cases hb : splitOnC c b with
    | nil => exact absurd hb h
    | cons y ys => exact List.getLast?_cons_cons
  | cons x xs ih =>
    have h2 := two_le_length_splitOnC c xs b
    by_cases hx : x = c
    · rw [List.cons_append, hx, splitOnC_cons_self]
      cases hr : splitOnC c (xs ++ c :: b) with
      | nil => simp [hr] at h2
      | cons y ys =>
        rw [hr] at ih
        rw [List.getLast?_cons_cons, ih]
    · rw [List.cons_append, splitOnC_cons_ne c x _ hx]
      cases hr : splitOnC c (xs ++ c :: b) with
      | nil => simp [hr] at h2
      | cons y ys =>
        cases ys with
        | nil => simp [hr] at h2
        | cons z zs =>
          rw [hr] at ih
          simp only [List.headD_cons, List.tail_cons]
          rw [List.getLast?_cons_cons, ← List.getLast?_cons_cons (a := y), ih]

theorem splitOnC_last_two (c : Char) (xs p f : List Char) (hp : c ∉ p) (hf : c ∉ f) :
    ∃ g gs, splitOnC c (xs ++ c :: (p ++ c :: f)) = (g :: gs) ++ [p, f] := by
  induction xs with
  | nil =>
    refine ⟨[], [], ?_⟩
    rw [List.nil_append, splitOnC_cons_self, splitOnC_append c p f hp,
      splitOnC_not_mem c f hf]
    rfl
  | cons x xs ih =>
    obtain ⟨g, gs, hg⟩ := ih
    by_cases hx : x = c
    · subst hx
      refine ⟨[], g :: gs, ?_⟩
      rw [List.cons_append, splitOnC_cons_self, hg]
      rfl
    · refine ⟨x :: g, gs, ?_⟩
      rw [List.cons_append, splitOnC_cons_ne c x _ hx, hg]
      rfl

/-! ### Label extraction theorems -/

theorem mnistLabel_parent (s : String) (xs p f : List Char)
    (hs : s.data = xs ++ '/' :: (p ++ '/' :: f)) (hp : '/' ∉ p) (hf : '/' ∉ f) :
    mnistLabel s = String.mk p := by
  obtain ⟨g, gs, hg⟩ := splitOnC_last_two '/' xs p f hp hf
  unfold mnistLabel parentNameOf
  rw [hs, hg]
  have h1 : (g :: gs) ++ [p, f] = ((g :: gs) ++ [p]) ++ [f] := by simp
  rw [h1, List.dropLast_concat, List.getLastD_eq_getLast?, List.getLast?_concat]
  rfl

theorem chineseLabel_part (s : String) (stem lab ext : List Char)
    (hs : fileNameOf s = (stem ++ '_' :: lab) ++ '.' :: ext)
    (hstem : '.' ∉ stem) (hlab : '.' ∉ lab) (hu : '_' ∉ lab) :
    chineseLabel s = String.mk lab := by
  unfold chineseLabel
  rw [hs]
  have h1 : '.' ∉ stem ++ '_' :: lab := by
    simp only [List.mem_append, List.mem_cons, not_or]
    exact ⟨hstem, by decide, hlab⟩
  rw [splitOnC_append _ _ _ h1, List.headD_cons, List.getLastD_eq_getLast?,
    getLast?_splitOnC_append, splitOnC_not_mem _ _ hu]
  rfl

theorem chineseLabel_whole (s : String) (base ext : List Char)
    (hs : fileNameOf s = base ++ '.' :: ext) (hb : '.' ∉ base) (hu : '_' ∉ base) :
    chineseLabel s = String.mk base := by
  unfold chineseLabel
  rw [hs, splitOnC_append _ _ _ hb, List.headD_cons, splitOnC_not_mem _ _ hu]
  rfl

theorem lookup_enumFrom (l : String) (ls : List String) :
    ∀ i : Nat, l ∈ ls → ∃ j, List.lookup l (enumFrom i ls) = some j ∧ j < i + ls.length := by
  induction ls with
  | nil => intro i h; cases h
  | cons x t ih =>
    intro i h
    by_cases hx : l = x
    · refine ⟨i, ?_, ?_⟩
      · simp [enumFrom, List.lookup, hx]
      · simp only [List.length_cons]; omega
    · have ht : l ∈ t := by
        rcases List.mem_cons.mp h with h1 | h1
        · exact absurd h1 hx
        · exact h1
      obtain ⟨j, hj, hjlt⟩ := ih (i + 1) ht
      refine ⟨j, ?_, ?_⟩
      · have hbeq : (l == x) = false := beq_eq_false_iff_ne.mpr hx
        simp [enumFrom, List.lookup, hbeq, hj]
      · simp only [List.length_cons]; omega

/-! ### Claim theorems about label extraction -/

/-- C1 (amended): for every supported input_type and any input path list, every
integer label assigned to an image lies in [0, numClasses).  The original
claim's further assertion that every produced label string is non-empty is
false (see the counterexample below): in chinese mode a filename whose part
before the first dot ends in an underscore yields the empty label. -/
theorem c1_int_labels_in_range (mode : String) (paths als : List String)
    (hals : allLabelsOf mode paths = some als) :
    intLabelsOf mode paths = some (intLabelsFrom als) ∧
    ∀ v ∈ intLabelsFrom als, v < numClasses als := by
  constructor
  · simp [intLabelsOf, hals]
  · intro v hv
    simp only [intLabelsFrom, List.mem_map] at hv
    obtain ⟨l, hl, hlv⟩ := hv
    have hld : l ∈ als.dedup := List.mem_dedup.mpr hl
    obtain ⟨j, hj, hjlt⟩ := lookup_enumFrom l als.dedup 0 hld
    rw [← hlv]
    unfold lookupLabel labelIndex
    rw [hj]
    simpa [numClasses] using hjlt

/-- C1 counterexample: in chinese mode, the input file img_.png produces the
label string "", which is empty — refuting the claim that every produced label
string is non-empty. -/
theorem c1_empty_label_counterexample :
    allLabelsOf "chinese" ["img_.png"] = some [""] ∧ ("" : String).length = 0 :=
  ⟨by decide, rfl⟩

theorem c1_int_labels_in_range_witness :
    intLabelsOf "mnist" ["images/catA/1.png"] = some (intLabelsFrom ["catA"]) ∧
    ∀ v ∈ intLabelsFrom ["catA"], v < numClasses ["catA"] :=
  c1_int_labels_in_range "mnist" ["images/catA/1.png"] ["catA"] (by decide)

/-- C2: in mnist mode the label of a file is the name of its immediate parent
directory (stated for any path of the shape prefix/parent/filename with
slash-free parent and filename), and on the concrete inputs
images/catA/1.png, images/catB/2.png the extractor produces the label list
["catA", "catB"] mapped bijectively onto the integers 0 and 1. -/
theorem c2_mnist_parent_label (s : String) (xs p f : List Char)
    (hs : s.data = xs ++ '/' :: (p ++ '/' :: f)) (hp : '/' ∉ p) (hf : '/' ∉ f) :
    mnistLabel s = String.mk p ∧
    allLabelsOf "mnist" ["images/catA/1.png", "images/catB/2.png"] =
      some ["catA", "catB"] ∧
    intLabelsOf "mnist" ["images/catA/1.png", "images/catB/2.png"] = some [0, 1] ∧
    numClasses ["catA", "catB"] = 2 :=
  ⟨mnistLabel_parent s xs p f hs hp hf, by decide, by decide, by decide⟩

theorem c2_mnist_parent_label_witness :
    mnistLabel "images/catA/1.png" = String.mk "catA".data ∧
    allLabelsOf "mnist" ["images/catA/1.png", "images/catB/2.png"] =
      some ["catA", "catB"] ∧
    intLabelsOf "mnist" ["images/catA/1.png", "images/catB/2.png"] = some [0, 1] ∧
    numClasses ["catA", "catB"] = 2 :=
  c2_mnist_parent_label "images/catA/1.png" "images".data "catA".data "1.png".data
    (by decide) (by decide) (by decide)

/-- C3: in chinese mode the label is the substring of the filename after the
last underscore and before the first dot (stated for any filename of the shape
stem_label.ext where the part before the first dot is stem_label and the label
holds no underscore), and the concrete filenames img_001_A.png and
img_002_B.png yield the labels "A" and "B". -/
theorem c3_chinese_label (s : String) (stem lab ext : List Char)
    (hs : fileNameOf s = (stem ++ '_' :: lab) ++ '.' :: ext)
    (hstem : '.' ∉ stem) (hlab : '.' ∉ lab) (hu : '_' ∉ lab) :
    chineseLabel s = String.mk lab ∧
    allLabelsOf "chinese" ["img_001_A.png", "img_002_B.png"] = some ["A", "B"] :=
  ⟨chineseLabel_part s stem lab ext hs hstem hlab hu, by decide⟩

theorem c3_chinese_label_witness :
    chineseLabel "img_001_A.png" = String.mk "A".data ∧
    allLabelsOf "chinese" ["img_001_A.png", "img_002_B.png"] = some ["A", "B"] :=
  c3_chinese_label "img_001_A.png" "img_001".data "A".data "png".data
    (by decide) (by decide) (by decide) (by decide)

/-- C4: for every input_type other than "mnist" and "chinese" the
label-extraction step defines no label list: the if/elif at train.py lines
75-80 has no else branch, so the run fails (modelled by none) instead of
producing labels. -/
theorem c4_unknown_input_type (mode : String) (paths : List String)
    (h1 : mode ≠ "mnist") (h2 : mode ≠ "chinese") :
    allLabelsOf mode paths = none ∧ intLabelsOf mode paths = none := by
  simp [allLabelsOf, intLabelsOf, h1, h2]

theorem c4_unknown_input_type_witness :
    allLabelsOf "other" ["images/catA/1.png"] = none ∧
    intLabelsOf "other" ["images/catA/1.png"] = none :=
  c4_unknown_input_type "other" ["images/catA/1.png"] (by decide) (by decide)

/-- C10: in chinese mode, a filename whose part before the first dot holds no
underscore yields that whole part as its label (extraction does not fail);
concretely abc.png yields the label "abc". -/
theorem c10_chinese_no_underscore (s : String) (base ext : List Char)
    (hs : fileNameOf s = base ++ '.' :: ext) (hb : '.' ∉ base) (hu : '_' ∉ base) :
    chineseLabel s = String.mk base ∧ chineseLabel "abc.png" = "abc" :=
  ⟨chineseLabel_whole s base ext hs hb hu, by decide⟩

theorem c10_chinese_no_underscore_witness :
    chineseLabel "abc.png" = String.mk "abc".data ∧ chineseLabel "abc.png" = "abc" :=
  c10_chinese_no_underscore "abc.png" "abc".data "png".data
    (by decide) (by decide) (by decide)

/-! ### Dataset splitter (train.py lines 93-95)

The call train_test_split(all_images, all_labels, test_size=0.33,
random_state=0) delegates to sklearn, which is not part of this repository;
only its call site is.  Following the spec it is modelled as a plain random
split, deterministic for the fixed seed: a seed-determined permutation of the
sample indices, the first ceil(0.33 * n) of which form the held-out test set
and the rest the training set, applied in lockstep to images and labels. -/

/-- Modelled from the spec: a linear congruential step standing in for the
library's seed-driven random source (the spec fixes no generator, only that
the split is deterministic for a fixed seed). -/
def lcgNext (s : Nat) : Nat := (1103515245 * s + 12345) % 2 ^ 31

/-- Modelled from the spec: a seed-driven Fisher-Yates shuffle with explicit
fuel (the fuel is always the length of the list being shuffled). -/
def shuffleGo : Nat → Nat → List Nat → List Nat
  | 0, _, _ => []
  | _ + 1, _, [] => []
  | fuel + 1, g, x :: xs =>
    (x :: xs).getD (g % (x :: xs).length) 0 ::
      shuffleGo fuel (lcgNext g) ((x :: xs).eraseIdx (g % (x :: xs).length))

/-- Modelled from the spec: the seed-determined permutation of the sample
indices 0..n-1 that drives the split. -/
def permOf (n seed : Nat) : List Nat :=
  shuffleGo n (lcgNext seed) (List.range n)

/-- Modelled from the spec: the held-out sample count for test fraction 0.33,
namely ceil(0.33 * n) — on 2 samples this is 1, matching the spec's
deterministic single-sample test split scenario. -/
def nTestOf (n : Nat) : Nat := (33 * n + 99) / 100

/-- Indices of the test rows. -/
def testIdxOf (n seed : Nat) : List Nat := (permOf n seed).take (nTestOf n)

/-- Indices of the training rows. -/
def trainIdxOf (n seed : Nat) : List Nat := (permOf n seed).drop (nTestOf n)

/-- The rows of l at the given indices. -/
def selectIdx (l : List α) (idxs : List Nat) : List α :=
  idxs.filterMap l.get?

/-- The four values X_train, X_test, y_train, y_test bound at train.py
line 93. -/
structure SplitResult (I L : Type) where
  xTrain : List I
  xTest : List I
  yTrain : List L
  yTest : List L

/-- Modelled from the spec: train_test_split(all_images, all_labels,
test_size=0.33, random_state=0) — images and labels are split by the same
seed-determined index permutation. -/
def trainTestSplit (images : List I) (labels : List L) (seed : Nat) :
    SplitResult I L where
  xTrain := selectIdx images (trainIdxOf images.length seed)
  xTest := selectIdx images (testIdxOf images.length seed)
  yTrain := selectIdx labels (trainIdxOf images.length seed)
  yTest := selectIdx labels (testIdxOf images.length seed)

/-! ### Facts about the splitter -/

theorem getD_cons_eraseIdx_perm :
    ∀ (l : List Nat) (i : Nat), i < l.length → (l.getD i 0 :: l.eraseIdx i).Perm l := by
  intro l
  induction l with
  | nil => intro i h; simp at h
  | cons x xs ih =>
    intro i h
    cases i with
    | zero => simp
    | succ j =>
      have hj : j < xs.length := by simpa using h
      have h1 := ih j hj
      have heq : (x :: xs).getD (j + 1) 0 :: (x :: xs).eraseIdx (j + 1)
          = xs.getD j 0 :: x :: xs.eraseIdx j := by simp [List.getD_cons_succ]
      rw [heq]
      exact (List.Perm.swap x (xs.getD j 0) (xs.eraseIdx j)).trans (h1.cons x)

theorem shuffleGo_perm :
    ∀ (fuel g : Nat) (l : List Nat), l.length ≤ fuel → (shuffleGo fuel g l).Perm l := by
  intro fuel
  induction fuel with
  | zero =>
    intro g l h
    have : l = [] := List.eq_nil_of_length_eq_zero (Nat.le_zero.mp h)
    subst this
    simp [shuffleGo]
  | succ fuel ih =>
    intro g l h
    cases l with
    | nil => simp [shuffleGo]
    | cons x xs =>
      have hlen : 0 < (x :: xs).length := by simp
      have hi : g % (x :: xs).length < (x :: xs).length := Nat.mod_lt _ hlen
      have herase : ((x :: xs).eraseIdx (g % (x :: xs).length)).length ≤ fuel := by
        rw [List.length_eraseIdx]
        simp only [if_pos hi]
        simp only [List.length_cons] at h ⊢
        omega
      have h1 := ih (lcgNext g) _ herase
      exact (h1.cons _).trans (getD_cons_eraseIdx_perm _ _ hi)

theorem permOf_perm (n seed : Nat) : (permOf n seed).Perm (List.range n) :=
  shuffleGo_perm n (lcgNext seed) (List.range n) (by simp)

theorem length_permOf (n seed : Nat) : (permOf n seed).length = n := by
  rw [(permOf_perm n seed).length_eq, List.length_range]

theorem mem_permOf_lt (n seed i : Nat) (h : i ∈ permOf n seed) : i < n := by
  have := (permOf_perm n seed).mem_iff.mp h
  simpa using this

theorem nodup_permOf (n seed : Nat) : (permOf n seed).Nodup :=
  (permOf_perm n seed).symm.nodup (List.nodup_range n)

theorem nTestOf_le (n : Nat) : nTestOf n ≤ n := by
  unfold nTestOf; omega

theorem selectIdx_length (l : List α) (idxs : List Nat)
    (h : ∀ i ∈ idxs, i < l.length) : (selectIdx l idxs).length = idxs.length := by
  induction idxs with
  | nil => rfl
  | cons i rest ih =>
    have hi : i < l.length := h i (List.mem_cons_self i rest)
    have hrest : ∀ j ∈ rest, j < l.length := fun j hj => h j (List.mem_cons_of_mem i hj)
    have hstep : selectIdx l (i :: rest) = l[i] :: selectIdx l rest := by
      simp only [selectIdx, List.filterMap_cons, List.get?_eq_getElem?,
        List.getElem?_eq_getElem hi]
    rw [hstep, List.length_cons, ih hrest, List.length_cons]

theorem selectIdx_range (l : List α) : selectIdx l (List.range l.length) = l := by
  induction l with
  | nil => rfl
  | cons x t ih =>
    have h2 : (x :: t).get? ∘ Nat.succ = t.get? := by
      funext i
      simp [Function.comp, List.get?_cons_succ]
    simp only [selectIdx, List.length_cons, List.range_succ_eq_map,
      List.filterMap_cons, List.filterMap_map, h2]
    simp only [List.get?]
    simp only [selectIdx] at ih
    rw [ih]

theorem get?_zip (la : List I) (lb : List L) :
    ∀ i a b, la.get? i = some a → lb.get? i = some b → (la.zip lb).get? i = some (a, b) := by
  induction la generalizing lb with
  | nil => intro i a b h; simp at h
  | cons x xs ih =>
    intro i a b ha hb
    cases lb with
    | nil => simp at hb
    | cons y ys =>
      cases i with
      | zero =>
        simp only [List.get?] at ha hb
        cases ha; cases hb; rfl
      | succ j =>
        simp only [List.get?_cons_succ] at ha hb
        simpa [List.zip_cons_cons, List.get?_cons_succ] using ih ys j a b ha hb

theorem selectIdx_zip (images : List I) (labels : List L) (idxs : List Nat)
    (hlen : images.length = labels.length) (h : ∀ i ∈ idxs, i < images.length) :
    (selectIdx images idxs).zip (selectIdx labels idxs) =
      selectIdx (images.zip labels) idxs := by
  induction idxs with
  | nil => rfl
  | cons i rest ih =>
    have hi : i < images.length := h i (List.mem_cons_self i rest)
    have hi' : i < labels.length := hlen ▸ hi
    have hrest : ∀ j ∈ rest, j < images.length := fun j hj => h j (List.mem_cons_of_mem i hj)
    have ha := List.get?_eq_get hi
    have hb := List.get?_eq_get hi'
    have hab := get?_zip images labels i _ _ ha hb
    simp only [selectIdx] at ih
    simp only [selectIdx, List.filterMap_cons, ha, hb, hab, List.zip_cons_cons]
    rw [ih hrest]

/-- train.py line 116: steps_per_epoch=X_train.shape[0] // 32, the number of
batches per epoch handed to the training loop. -/
def stepsPerEpoch (nTrain : Nat) : Nat := nTrain / 32

/-! ### Claim theorems about the splitter -/

/-- C5 (amended): for every input sample set the splitter partitions the
(image, label) pairs into train and test subsets drawn from disjoint index
sets whose union reconstitutes the full sample set, with the test subset
holding ceil(0.33 * n) samples — the ceiling of fraction 0.33, not exactly
fraction 0.33 of the samples (see the counterexample at n = 2). -/
theorem c5_split_partition (images : List I) (labels : List L) (seed : Nat)
    (hlen : images.length = labels.length) :
    List.Disjoint (testIdxOf images.length seed) (trainIdxOf images.length seed) ∧
    (((trainTestSplit images labels seed).xTest.zip
        (trainTestSplit images labels seed).yTest) ++
      ((trainTestSplit images labels seed).xTrain.zip
        (trainTestSplit images labels seed).yTrain)).Perm (images.zip labels) ∧
    (trainTestSplit images labels seed).xTest.length = nTestOf images.length ∧
    (trainTestSplit images labels seed).xTrain.length =
      images.length - nTestOf images.length := by
  have hperm := permOf_perm images.length seed
  have hmemT : ∀ i ∈ testIdxOf images.length seed, i < images.length := by
    intro i hi
    exact mem_permOf_lt _ _ _ (List.take_subset _ _ hi)
  have hmemR : ∀ i ∈ trainIdxOf images.length seed, i < images.length := by
    intro i hi
    exact mem_permOf_lt _ _ _ (List.drop_subset _ _ hi)
  have hzlen : (images.zip labels).length = images.length := by
    rw [List.length_zip, ← hlen, Nat.min_self]
  have hmemT' : ∀ i ∈ testIdxOf images.length seed, i < (images.zip labels).length := by
    rw [hzlen]; exact hmemT
  have hmemR' : ∀ i ∈ trainIdxOf images.length seed, i < (images.zip labels).length := by
    rw [hzlen]; exact hmemR
  refine ⟨?_, ?_, ?_, ?_⟩
  · have hnd : (testIdxOf images.length seed ++ trainIdxOf images.length seed).Nodup := by
      unfold testIdxOf trainIdxOf
      rw [List.take_append_drop]
      exact nodup_permOf _ _
    exact (List.nodup_append.mp hnd).2.2
  · have e1 : (trainTestSplit images labels seed).xTest.zip
        (trainTestSplit images labels seed).yTest =
        selectIdx (images.zip labels) (testIdxOf images.length seed) :=
      selectIdx_zip images labels _ hlen hmemT
    have e2 : (trainTestSplit images labels seed).xTrain.zip
        (trainTestSplit images labels seed).yTrain =
        selectIdx (images.zip labels) (trainIdxOf images.length seed) :=
      selectIdx_zip images labels _ hlen hmemR
    rw [e1, e2]
    have e3 : selectIdx (images.zip labels) (testIdxOf images.length seed) ++
        selectIdx (images.zip labels) (trainIdxOf images.length seed) =
        selectIdx (images.zip labels) (permOf images.length seed) := by
      unfold selectIdx testIdxOf trainIdxOf
      rw [← List.filterMap_append, List.take_append_drop]
    rw [e3]
    have e4 : (selectIdx (images.zip labels) (permOf images.length seed)).Perm
        (selectIdx (images.zip labels) (List.range images.length)) :=
      List.Perm.filterMap _ hperm
    have e5 : selectIdx (images.zip labels) (List.range images.length) =
        images.zip labels := by
      have := selectIdx_range (images.zip labels)
      rw [hzlen] at this
      exact this
    rw [e5] at e4
    exact e4
  · show (selectIdx images (testIdxOf images.length seed)).length = _
    rw [selectIdx_length images (testIdxOf images.length seed) hmemT]
    unfold testIdxOf
    rw [List.length_take, length_permOf, Nat.min_eq_left (nTestOf_le _)]
  · show (selectIdx images (trainIdxOf images.length seed)).length = _
    rw [selectIdx_length images (trainIdxOf images.length seed) hmemR]
    unfold trainIdxOf
    rw [List.length_drop, length_permOf]

/-- C5 counterexample: on a 2-sample input the test subset of the split holds
1 sample, and 1 is not fraction 0.33 of the 2 samples (100 * 1 is not
33 * 2) — exact fraction 0.33 is unattainable there. -/
theorem c5_exact_fraction_counterexample :
    (trainTestSplit [0, 1] [10, 20] 0).xTest.length = 1 ∧
    ¬(100 * (trainTestSplit [0, 1] [10, 20] 0).xTest.length = 33 * 2) := by
  constructor <;> decide

theorem c5_split_partition_witness :
    List.Disjoint (testIdxOf [0, 1, 2].length 0) (trainIdxOf [0, 1, 2].length 0) ∧
    (((trainTestSplit [0, 1, 2] [10, 20, 30] 0).xTest.zip
        (trainTestSplit [0, 1, 2] [10, 20, 30] 0).yTest) ++
      ((trainTestSplit [0, 1, 2] [10, 20, 30] 0).xTrain.zip
        (trainTestSplit [0, 1, 2] [10, 20, 30] 0).yTrain)).Perm
      ([0, 1, 2].zip [10, 20, 30]) ∧
    (trainTestSplit [0, 1, 2] [10, 20, 30] 0).xTest.length = nTestOf [0, 1, 2].length ∧
    (trainTestSplit [0, 1, 2] [10, 20, 30] 0).xTrain.length =
      [0, 1, 2].length - nTestOf [0, 1, 2].length :=
  c5_split_partition [0, 1, 2] [10, 20, 30] 0 rfl

/-- C6: the split is deterministic for a fixed seed — two runs of the splitter
on the same images, labels and seed produce identical train and test
partitions (the modelled splitter is a pure function of its inputs and the
seed; no other state enters). -/
theorem c6_split_deterministic (images1 images2 : List I) (labels1 labels2 : List L)
    (seed1 seed2 : Nat) (h1 : images1 = images2) (h2 : labels1 = labels2)
    (h3 : seed1 = seed2) :
    trainTestSplit images1 labels1 seed1 = trainTestSplit images2 labels2 seed2 := by
  rw [h1, h2, h3]

theorem c6_split_deterministic_witness :
    trainTestSplit [0, 1, 2] [10, 20, 30] 0 = trainTestSplit [0, 1, 2] [10, 20, 30] 0 :=
  c6_split_deterministic [0, 1, 2] [0, 1, 2] [10, 20, 30] [10, 20, 30] 0 0 rfl rfl rfl

/-- C9: the number of batches per epoch supplied to the training loop is the
training-set size divided by the batch size 32 with integer division
(train.py line 116), so within each epoch at most 31 training samples — a
partial final batch — are dropped. -/
theorem c9_steps_per_epoch (images : List I) (labels : List L) (seed : Nat) :
    stepsPerEpoch (trainTestSplit images labels seed).xTrain.length =
      (trainTestSplit images labels seed).xTrain.length / 32 ∧
    32 * stepsPerEpoch (trainTestSplit images labels seed).xTrain.length ≤
      (trainTestSplit images labels seed).xTrain.length ∧
    (trainTestSplit images labels seed).xTrain.length -
      32 * stepsPerEpoch (trainTestSplit images labels seed).xTrain.length < 32 := by
  refine ⟨rfl, ?_, ?_⟩ <;> · unfold stepsPerEpoch; omega

/-! ### Confusion matrix (train.py lines 124-127) -/

/-- Modelled from the spec: sklearn.metrics.confusion_matrix(y_test, y_pred,
labels=L) is not part of this repository; per the spec's glossary it is the
table of true-vs-predicted class counts over the evaluation set, with row i
and column j counting the samples whose true label is L i and whose predicted
label is L j. -/
def confusionMatrix (labelVals : List Nat) (yTrue yPred : List Nat) : List (List Nat) :=
  labelVals.map (fun a => labelVals.map (fun b =>
    (yTrue.zip yPred).countP (fun q => q.1 == a && q.2 == b)))

/-- dict .values() of label_index: train.py line 125 passes
list(label_index.values()) as the matrix axis labels. -/
def labelValues (li : List (String × Nat)) : List Nat :=
  li.map (fun kv => kv.2)

/-- dict .keys() of label_index: train.py line 126 uses label_index.keys() as
the written table's external row and column names. -/
def labelKeys (li : List (String × Nat)) : List String :=
  li.map (fun kv => kv.1)

/-- Sum of all entries of a matrix. -/
def cmTotal (cm : List (List Nat)) : Nat :=
  (cm.map List.sum).sum

theorem labelValues_enumFrom :
    ∀ (ls : List String) (i : Nat), labelValues (enumFrom i ls) = List.range' i ls.length := by
  intro ls
  induction ls with
  | nil => intro i; rfl
  | cons x t ih =>
    intro i
    simp only [enumFrom, labelValues, List.map_cons, List.length_cons, List.range'_succ]
    simp only [labelValues] at ih
    rw [ih (i + 1)]

theorem labelValues_labelIndex (ls : List String) :
    labelValues (labelIndex ls) = List.range ls.length := by
  rw [labelIndex, labelValues_enumFrom, List.range_eq_range']

theorem labelKeys_enumFrom :
    ∀ (ls : List String) (i : Nat), labelKeys (enumFrom i ls) = ls := by
  intro ls
  induction ls with
  | nil => intro i; rfl
  | cons x t ih =>
    intro i
    simp only [enumFrom, labelKeys, List.map_cons, List.cons.injEq]
    simp only [labelKeys] at ih
    exact ⟨trivial, ih (i + 1)⟩

theorem labelKeys_labelIndex (ls : List String) : labelKeys (labelIndex ls) = ls :=
  labelKeys_enumFrom ls 0

theorem countP_pairs_total (k : Nat) :
    ∀ l : List (Nat × Nat), (∀ q ∈ l, q.1 < k ∧ q.2 < k) →
      (∑ a ∈ Finset.range k, ∑ b ∈ Finset.range k,
        l.countP (fun q => q.1 == a && q.2 == b)) = l.length := by
  intro l
  induction l with
  | nil => intro h; simp [List.countP_nil]
  | cons q l ih =>
    intro h
    have hq := h q (List.mem_cons_self q l)
    have hl : ∀ p ∈ l, p.1 < k ∧ p.2 < k := fun p hp => h p (List.mem_cons_of_mem q hp)
    simp only [List.countP_cons]
    rw [Finset.sum_congr rfl (fun a _ => Finset.sum_add_distrib), Finset.sum_add_distrib,
      ih hl]
    simp only [Bool.and_eq_true, beq_iff_eq, List.length_cons]
    have inner : ∀ a : Nat,
        (∑ b ∈ Finset.range k, if q.1 = a ∧ q.2 = b then 1 else 0) =
          if q.1 = a then 1 else 0 := by
      intro a
      by_cases ha : q.1 = a
      · simp only [ha, true_and]
        rw [Finset.sum_ite_eq (Finset.range k) q.2 (fun _ => 1)]
        simp [Finset.mem_range, hq.2]
      · simp [ha]
    rw [Finset.sum_congr rfl (fun a _ => inner a),
      Finset.sum_ite_eq (Finset.range k) q.1 (fun _ => 1)]
    simp [Finset.mem_range, hq.1]

theorem sum_map_range_eq (f : Nat → Nat) (n : Nat) :
    ((List.range n).map f).sum = ∑ i ∈ Finset.range n, f i := rfl

theorem cmTotal_confusionMatrix (k : Nat) (yt yp : List Nat)
    (h1 : ∀ v ∈ yt, v < k) (h2 : ∀ v ∈ yp, v < k) (hlen : yt.length = yp.length) :
    cmTotal (confusionMatrix (List.range k) yt yp) = yt.length := by
  have hq : ∀ q ∈ yt.zip yp, q.1 < k ∧ q.2 < k := by
    intro q hqm
    obtain ⟨q1, q2⟩ := q
    have hm := List.of_mem_zip hqm
    exact ⟨h1 _ hm.1, h2 _ hm.2⟩
  have hzlen : (yt.zip yp).length = yt.length := by
    rw [List.length_zip, hlen, Nat.min_self]
  unfold cmTotal confusionMatrix
  rw [List.map_map]
  have e1 : (List.sum ∘ fun a =>
      (List.range k).map (fun b => (yt.zip yp).countP (fun q => q.1 == a && q.2 == b))) =
      fun a => ∑ b ∈ Finset.range k, (yt.zip yp).countP (fun q => q.1 == a && q.2 == b) := by
    funext a
    exact sum_map_range_eq _ k
  rw [e1, sum_map_range_eq, countP_pairs_total k (yt.zip yp) hq, hzlen]

/-- C7: the confusion matrix is square with side length the number of distinct
labels, its axes are the integer label indices in order (the values of
label_index) while the written table is externally labeled with the original
label strings (the keys of label_index), and the sum of all entries equals the
number of evaluated test samples. -/
theorem c7_confusion_matrix (als : List String) (yt yp : List Nat)
    (h1 : ∀ v ∈ yt, v < numClasses als) (h2 : ∀ v ∈ yp, v < numClasses als)
    (hlen : yt.length = yp.length) :
    labelValues (labelIndex als.dedup) = List.range (numClasses als) ∧
    labelKeys (labelIndex als.dedup) = als.dedup ∧
    (confusionMatrix (labelValues (labelIndex als.dedup)) yt yp).length = numClasses als ∧
    (∀ row ∈ confusionMatrix (labelValues (labelIndex als.dedup)) yt yp,
      row.length = numClasses als) ∧
    cmTotal (confusionMatrix (labelValues (labelIndex als.dedup)) yt yp) = yt.length := by
  have hv : labelValues (labelIndex als.dedup) = List.range (numClasses als) :=
    labelValues_labelIndex als.dedup
  refine ⟨hv, labelKeys_labelIndex als.dedup, ?_, ?_, ?_⟩
  · rw [hv]
    simp [confusionMatrix, numClasses]
  · rw [hv]
    intro row hrow
    simp only [confusionMatrix, List.mem_map] at hrow
    obtain ⟨a, _, hrw⟩ := hrow
    rw [← hrw]
    simp [numClasses]
  · rw [hv]
    exact cmTotal_confusionMatrix (numClasses als) yt yp h1 h2 hlen

theorem c7_confusion_matrix_witness :
    labelValues (labelIndex (["A", "B"] : List String).dedup) =
      List.range (numClasses ["A", "B"]) ∧
    labelKeys (labelIndex (["A", "B"] : List String).dedup) = (["A", "B"] : List String).dedup ∧
    (confusionMatrix (labelValues (labelIndex (["A", "B"] : List String).dedup))
      [0, 1, 1] [1, 1, 0]).length = numClasses ["A", "B"] ∧
    (∀ row ∈ confusionMatrix (labelValues (labelIndex (["A", "B"] : List String).dedup))
      [0, 1, 1] [1, 1, 0], row.length = numClasses ["A", "B"]) ∧
    cmTotal (confusionMatrix (labelValues (labelIndex (["A", "B"] : List String).dedup))
      [0, 1, 1] [1, 1, 0]) = [0, 1, 1].length :=
  c7_confusion_matrix ["A", "B"] [0, 1, 1] [1, 1, 0]
    (by decide) (by decide) (by decide)

/-! ### Misclassified-image report (train.py lines 133-147) -/

/-- train.py lines 133-135: the test indices whose prediction differs from the
true label, in test-set order. -/
def wrongPicturesIdx (yPred yTest : List Nat) : List Nat :=
  (List.range yPred.length).filter (fun i => yPred.getD i 0 != yTest.getD i 0)

/-- train.py lines 138-143: the list-comprehension lookup of every label
string whose index equals v (a singleton for in-range v, since the indices in
label_index are distinct). -/
def labelsMatching (li : List (String × Nat)) (v : Nat) : List String :=
  (li.filter (fun kv => kv.2 == v)).map (fun kv => kv.1)

/-- The single-quote character, as Python renders strings inside a list. -/
def sq : String := String.mk [Char.ofNat 39]

/-- Python repr of a list of strings, as an f-string interpolates it:
brackets, comma-space separators, each element single-quoted. -/
def pyListRepr (l : List String) : String :=
  "[" ++ String.intercalate ", " (l.map (fun s => sq ++ s ++ sq)) ++ "]"

/-- train.py line 144: title = f-string interpolating the two lookup lists. -/
def titleFor (li : List (String × Nat)) (yt yp : Nat) : String :=
  "true " ++ pyListRepr (labelsMatching li yt) ++ ": predicted " ++
    pyListRepr (labelsMatching li yp)

/-- train.py lines 137-147: one written entry per misclassified test sample
among the first 20 of them, in test-set order; each entry's text annotation. -/
def reportTitles (li : List (String × Nat)) (yPred yTest : List Nat) : List String :=
  ((wrongPicturesIdx yPred yTest).take 20).map
    (fun i => titleFor li (yTest.getD i 0) (yPred.getD i 0))

theorem labelsMatching_enumFrom :
    ∀ (ls : List String) (i v : Nat),
      labelsMatching (enumFrom i ls) v =
        if i ≤ v ∧ v < i + ls.length then [ls.getD (v - i) ""] else [] := by
  intro ls
  induction ls with
  | nil =>
    intro i v
    rw [if_neg]
    · rfl
    · simp only [List.length_nil, Nat.add_zero, not_and]
      omega
  | cons x t ih =>
    intro i v
    by_cases hv : i = v
    · subst hv
      have h0 : labelsMatching (enumFrom (i + 1) t) i = [] := by
        rw [ih (i + 1) i, if_neg]
        omega
      have hstep : labelsMatching (enumFrom i (x :: t)) i =
          x :: labelsMatching (enumFrom (i + 1) t) i := by
        simp [labelsMatching, enumFrom, List.filter_cons]
      rw [hstep, h0, if_pos (by simp only [List.length_cons]; omega)]
      simp [Nat.sub_self]
    · have hbeq : (i == v) = false := by
        exact beq_eq_false_iff_ne.mpr hv
      have hstep : labelsMatching (enumFrom i (x :: t)) v =
          labelsMatching (enumFrom (i + 1) t) v := by
        simp [labelsMatching, enumFrom, List.filter_cons, hbeq]
      rw [hstep, ih (i + 1) v]
      by_cases hc : i + 1 ≤ v ∧ v < i + 1 + t.length
      · rw [if_pos hc, if_pos (by simp only [List.length_cons]; omega)]
        have hvk : v - i = (v - (i + 1)) + 1 := by omega
        rw [hvk, List.getD_cons_succ]
      · rw [if_neg hc, if_neg]
        simp only [List.length_cons, not_and] at hc ⊢
        omega

theorem labelsMatching_labelIndex (ls : List String) (v : Nat) (hv : v < ls.length) :
    labelsMatching (labelIndex ls) v = [ls.getD v ""] := by
  rw [labelIndex, labelsMatching_enumFrom]
  rw [if_pos ⟨Nat.zero_le v, by simpa using hv⟩]
  simp

/-- C8 (amended): the reporter selects exactly the test samples whose
predicted class differs from the true class, takes at most the first 20 of
them in test-set order, and writes for each an annotation interpolating the
singleton label-lookup lists — rendering as true [X]: predicted [Y] with
single-quoted X and Y — rather than the claim's literal format
true: X, predicted: Y (see the counterexample). -/
theorem c8_misclassified_report (als : List String) (yPred yTest : List Nat) (v w : Nat)
    (hv : v < numClasses als) (hw : w < numClasses als) :
    (∀ i, i ∈ wrongPicturesIdx yPred yTest ↔
      (i < yPred.length ∧ yPred.getD i 0 ≠ yTest.getD i 0)) ∧
    (reportTitles (labelIndex als.dedup) yPred yTest).length ≤ 20 ∧
    reportTitles (labelIndex als.dedup) yPred yTest =
      ((wrongPicturesIdx yPred yTest).take 20).map
        (fun i => titleFor (labelIndex als.dedup) (yTest.getD i 0) (yPred.getD i 0)) ∧
    titleFor (labelIndex als.dedup) v w =
      "true " ++ pyListRepr [als.dedup.getD v ""] ++ ": predicted " ++
        pyListRepr [als.dedup.getD w ""] := by
  refine ⟨?_, ?_, rfl, ?_⟩
  · intro i
    simp [wrongPicturesIdx, List.mem_filter, List.mem_range, bne_iff_ne]
  · have h1 : (reportTitles (labelIndex als.dedup) yPred yTest).length =
        ((wrongPicturesIdx yPred yTest).take 20).length := by
      simp [reportTitles]
    rw [h1, List.length_take]
    exact min_le_left _ _
  · unfold titleFor
    rw [labelsMatching_labelIndex als.dedup v hv, labelsMatching_labelIndex als.dedup w hw]

/-- C8 counterexample: with distinct labels A and B, one test sample with
true class 0 (A) predicted as 1 (B), the single written annotation
interpolates the two singleton lists, so it reads true [ quoted A ]:
predicted [ quoted B ] and not the claim's literal text
true: A, predicted: B. -/
theorem c8_annotation_format_counterexample :
    reportTitles (labelIndex (["A", "B"] : List String).dedup) [1] [0] =
      ["true [" ++ sq ++ "A" ++ sq ++ "]: predicted [" ++ sq ++ "B" ++ sq ++ "]"] ∧
    ¬(reportTitles (labelIndex (["A", "B"] : List String).dedup) [1] [0] =
      ["true: A, predicted: B"]) := by
  constructor <;> decide

theorem c8_misclassified_report_witness :
    (∀ i, i ∈ wrongPicturesIdx [1] [0] ↔
      (i < ([1] : List Nat).length ∧ ([1] : List Nat).getD i 0 ≠ ([0] : List Nat).getD i 0)) ∧
    (reportTitles (labelIndex (["A", "B"] : List String).dedup) [1] [0]).length ≤ 20 ∧
    reportTitles (labelIndex (["A", "B"] : List String).dedup) [1] [0] =
      ((wrongPicturesIdx [1] [0]).take 20).map
        (fun i => titleFor (labelIndex (["A", "B"] : List String).dedup)
          (([0] : List Nat).getD i 0) (([1] : List Nat).getD i 0)) ∧
    titleFor (labelIndex (["A", "B"] : List String).dedup) 0 1 =
      "true " ++ pyListRepr [(["A", "B"] : List String).dedup.getD 0 ""] ++ ": predicted " ++
        pyListRepr [(["A", "B"] : List String).dedup.getD 1 ""] :=
  c8_misclassified_report ["A", "B"] [1] [0] 0 1 (by decide) (by decide)

end AquariumTrain
